import Mathlib

/-
Verification of the sampling module of the kgpy repository
(kgpy/sampling.py) against its natural-language specification.

The module builds a reverse index from knowledge-graph triplets,
produces corrupted (negative) triplets in pairwise mode (One_to_K),
and produces multi-hot label matrices in 1-to-N mode (One_to_N).
Every definition below is a shallow embedding of the corresponding
Python code; randomness is made explicit through function parameters
supplying the drawn values.
-/

namespace Kgpy

/-- Triplet of a knowledge graph: (head, relation, tail), all ids naturals. -/
structure Triplet where
  h : Nat
  r : Nat
  t : Nat
deriving DecidableEq

instance : Inhabited Triplet := ⟨⟨0, 0, 0⟩⟩

/-- Values appearing inside an index key. The Python code uses heterogeneous
tuples as dictionary keys: `("head", r, t)` and `("tail", r, h)` mix a string
tag with ints, and inverse-mode keys `(r, h)` are all ints. Numpy conversion
in `One_to_N.__next__` turns ints into strings, so both forms must coexist in
one type; note that the string "0" and the int 0 are distinct values, exactly
as in Python. -/
inductive PyVal where
  | s : String → PyVal
  | n : Nat → PyVal
deriving DecidableEq

/-- An index key is a Python tuple of values, modelled as a list. -/
abbrev Key := List PyVal

/-- The index is an insertion-ordered mapping (Python dict) from keys to
entity lists, modelled as an association list. -/
abbrev Index := List (Key × List Nat)

/-- Key used for the head mapping: `("head", relation, tail)`. -/
def headKey (t : Triplet) : Key := [.s "head", .n t.r, .n t.t]

/-- Key used for the tail mapping: `("tail", relation, head)`. -/
def tailKey (t : Triplet) : Key := [.s "tail", .n t.r, .n t.h]

/-- Key used in inverse mode: `(relation, head)`. -/
def invKey (t : Triplet) : Key := [.n t.r, .n t.h]

/-- Embedding of `self.index[k].append(e)` on a `defaultdict(list)`: append
`e` to the bucket of `k`; when `k` is absent, a fresh bucket is created at
the end of the insertion-ordered mapping. -/
def insertAppend : Index → Key → Nat → Index
  | [], k, e => [(k, [e])]
  | (k0, v) :: rest, k, e =>
    if k0 = k then (k0, v ++ [e]) :: rest
    else (k0, v) :: insertAppend rest k e

/-- One iteration of the loop in `Sampler._build_index`: in inverse mode
append the tail under `(r, h)`; otherwise append the head under
`("head", r, t)` and then the tail under `("tail", r, h)`. -/
def build_step (inverse : Bool) (idx : Index) (t : Triplet) : Index :=
  if inverse then insertAppend idx (invKey t) t.t
  else insertAppend (insertAppend idx (headKey t) t.h) (tailKey t) t.t

/-- The index after the insertion loop of `Sampler._build_index`, before the
duplicate-removal pass. -/
def build_raw (trips : List Triplet) (inverse : Bool) : Index :=
  trips.foldl (build_step inverse) []

/-- Embedding of `Sampler._build_index`: the insertion loop followed by the
per-bucket duplicate removal `self.index[k] = list(set(v))`. Deduplication
is modelled by `List.dedup`, which has the same set of members as the Python
result (the order a Python set iterates in is unspecified, and no claim
depends on bucket order). -/
def build_index (trips : List Triplet) (inverse : Bool) : Index :=
  (build_raw trips inverse).map (fun kv => (kv.1, kv.2.dedup))

/-- Read-only bucket lookup, returning the empty list for an absent key;
used to state facts about an index. -/
def findBucket : Index → Key → List Nat
  | [], _ => []
  | (k0, v) :: rest, k => if k0 = k then v else findBucket rest k

/-- The insertion-ordered key list of an index (`list(self.index.keys())`). -/
def keyList (idx : Index) : List Key := idx.map Prod.fst

/-- The entities a single triplet contributes to the bucket of key `k` in
one step of the index build. -/
def contrib (inverse : Bool) (t : Triplet) (k : Key) : List Nat :=
  if inverse then (if k = invKey t then [t.t] else [])
  else
    (if k = headKey t then [t.h] else []) ++ (if k = tailKey t then [t.t] else [])

/-- The keys a single triplet touches in one step of the index build. -/
def tripletKeys (inverse : Bool) (t : Triplet) : List Key :=
  if inverse then [invKey t] else [headKey t, tailKey t]

lemma build_step_true (idx : Index) (t : Triplet) :
    build_step true idx t = insertAppend idx (invKey t) t.t := rfl

lemma build_step_false (idx : Index) (t : Triplet) :
    build_step false idx t =
      insertAppend (insertAppend idx (headKey t) t.h) (tailKey t) t.t := rfl

lemma contrib_true (t : Triplet) (k : Key) :
    contrib true t k = (if k = invKey t then [t.t] else []) := rfl

lemma contrib_false (t : Triplet) (k : Key) :
    contrib false t k =
      (if k = headKey t then [t.h] else []) ++
        (if k = tailKey t then [t.t] else []) := rfl

lemma tripletKeys_true (t : Triplet) : tripletKeys true t = [invKey t] := rfl

lemma tripletKeys_false (t : Triplet) :
    tripletKeys false t = [headKey t, tailKey t] := rfl

lemma findBucket_insertAppend (idx : Index) (k k0 : Key) (e e0 : Nat) :
    e0 ∈ findBucket (insertAppend idx k e) k0 ↔
      e0 ∈ findBucket idx k0 ∨ (k0 = k ∧ e0 = e) := by
  induction idx with
  | nil =>
    by_cases hk : k = k0
    · subst hk
      simp [insertAppend, findBucket]
    · have h2 : ¬ k0 = k := fun hh => hk hh.symm
      simp [insertAppend, findBucket, hk, h2]
  | cons p rest ih =>
    obtain ⟨k1, v⟩ := p
    by_cases h1 : k1 = k
    · subst h1
      by_cases h0 : k1 = k0
      · subst h0
        simp [insertAppend, findBucket]
      · have h2 : ¬ k0 = k1 := fun hh => h0 hh.symm
        simp [insertAppend, findBucket, h0, h2]
    · by_cases h0 : k1 = k0
      · subst h0
        simp only [insertAppend, if_neg h1, findBucket, if_pos rfl]
        constructor
        · exact fun hh => Or.inl hh
        · rintro (hh | ⟨hk0, he⟩)
          · exact hh
          · exact absurd hk0 h1
      · simp [insertAppend, findBucket, h1, h0, ih]

lemma findBucket_build_step (inverse : Bool) (idx : Index) (t : Triplet)
    (k : Key) (e : Nat) :
    e ∈ findBucket (build_step inverse idx t) k ↔
      e ∈ findBucket idx k ∨ e ∈ contrib inverse t k := by
  cases inverse with
  | true =>
    rw [build_step_true, contrib_true, findBucket_insertAppend]
    by_cases hk : k = invKey t <;> simp [hk]
  | false =>
    rw [build_step_false, contrib_false, findBucket_insertAppend,
      findBucket_insertAppend]
    by_cases hh : k = headKey t <;> by_cases ht : k = tailKey t <;>
      simp [hh, ht] <;> tauto

lemma findBucket_foldl (inverse : Bool) (L : List Triplet) :
    ∀ (idx : Index) (k : Key) (e : Nat),
      e ∈ findBucket (L.foldl (build_step inverse) idx) k ↔
        e ∈ findBucket idx k ∨ ∃ t ∈ L, e ∈ contrib inverse t k := by
  induction L with
  | nil => intro idx k e; simp
  | cons t L ih =>
    intro idx k e
    simp only [List.foldl_cons]
    rw [ih, findBucket_build_step]
    simp only [List.mem_cons]
    constructor
    · rintro ((hh | hc) | ⟨t1, ht1, hc1⟩)
      · exact Or.inl hh
      · exact Or.inr ⟨t, Or.inl rfl, hc⟩
      · exact Or.inr ⟨t1, Or.inr ht1, hc1⟩
    · rintro (hh | ⟨t1, (rfl | ht1), hc1⟩)
      · exact Or.inl (Or.inl hh)
      · exact Or.inl (Or.inr hc1)
      · exact Or.inr ⟨t1, ht1, hc1⟩

lemma findBucket_map_dedup (idx : Index) (k : Key) :
    findBucket (idx.map (fun kv => (kv.1, kv.2.dedup))) k =
      (findBucket idx k).dedup := by
  induction idx with
  | nil => simp [findBucket]
  | cons p rest ih =>
    obtain ⟨k1, v⟩ := p
    simp only [List.map_cons, findBucket]
    by_cases h : k1 = k
    · simp [h]
    · simp [h, ih]

/-- Membership in a bucket of the finished index is exactly: some triplet of
the input contributes that entity to that key. -/
lemma mem_findBucket_build_index (trips : List Triplet) (inverse : Bool)
    (k : Key) (e : Nat) :
    e ∈ findBucket (build_index trips inverse) k ↔
      ∃ t ∈ trips, e ∈ contrib inverse t k := by
  unfold build_index build_raw
  rw [findBucket_map_dedup, List.mem_dedup, findBucket_foldl]
  simp [findBucket]

lemma keyList_insertAppend (idx : Index) (k k0 : Key) (e : Nat) :
    k0 ∈ keyList (insertAppend idx k e) ↔ k0 ∈ keyList idx ∨ k0 = k := by
  induction idx with
  | nil => simp [insertAppend, keyList]
  | cons p rest ih =>
    obtain ⟨k1, v⟩ := p
    simp only [insertAppend]
    by_cases h1 : k1 = k
    · subst h1
      rw [if_pos rfl]
      simp only [keyList, List.map_cons, List.mem_cons]
      tauto
    · rw [if_neg h1]
      simp only [keyList, List.map_cons, List.mem_cons] at *
      rw [ih]
      tauto

lemma keyList_build_step (inverse : Bool) (idx : Index) (t : Triplet)
    (k : Key) :
    k ∈ keyList (build_step inverse idx t) ↔
      k ∈ keyList idx ∨ k ∈ tripletKeys inverse t := by
  cases inverse with
  | true =>
    rw [build_step_true, tripletKeys_true, keyList_insertAppend]
    simp
  | false =>
    rw [build_step_false, tripletKeys_false, keyList_insertAppend,
      keyList_insertAppend]
    simp only [List.mem_cons, List.mem_singleton, List.not_mem_nil, or_false]
    tauto

lemma keyList_foldl (inverse : Bool) (L : List Triplet) :
    ∀ (idx : Index) (k : Key),
      k ∈ keyList (L.foldl (build_step inverse) idx) ↔
        k ∈ keyList idx ∨ ∃ t ∈ L, k ∈ tripletKeys inverse t := by
  induction L with
  | nil => intro idx k; simp
  | cons t L ih =>
    intro idx k
    simp only [List.foldl_cons]
    rw [ih, keyList_build_step]
    simp only [List.mem_cons]
    constructor
    · rintro ((hh | hc) | ⟨t1, ht1, hc1⟩)
      · exact Or.inl hh
      · exact Or.inr ⟨t, Or.inl rfl, hc⟩
      · exact Or.inr ⟨t1, Or.inr ht1, hc1⟩
    · rintro (hh | ⟨t1, (rfl | ht1), hc1⟩)
      · exact Or.inl (Or.inl hh)
      · exact Or.inl (Or.inr hc1)
      · exact Or.inr ⟨t1, ht1, hc1⟩

lemma keyList_build_index (trips : List Triplet) (inverse : Bool) (k : Key) :
    k ∈ keyList (build_index trips inverse) ↔
      ∃ t ∈ trips, k ∈ tripletKeys inverse t := by
  unfold build_index build_raw keyList
  rw [List.map_map]
  have hc : (Prod.fst ∘ fun kv : Key × List Nat => (kv.1, kv.2.dedup)) =
      Prod.fst := by
    funext kv; rfl
  rw [hc]
  have := keyList_foldl inverse trips [] k
  unfold keyList at this
  simpa using this

/-- Concrete triplet list of the spec scenarios:
`[(0,0,1), (1,0,2), (0,1,2)]`. -/
def demoTrips : List Triplet := [⟨0, 0, 1⟩, ⟨1, 0, 2⟩, ⟨0, 1, 2⟩]

/-- C3 counterexample: the spec scenario asserts that the bucket of
`("tail",0,0)` is the two-element set of 1 and 2 for the demo triplets, but
triplet `(1,0,2)` has head 1, so its tail entity 2 lands under
`("tail",0,1)`; the bucket of `("tail",0,0)` does not contain 2. -/
theorem build_index_demo_tail00_no_two :
    ¬ ((2 : Nat) ∈
      findBucket (build_index demoTrips false) [.s "tail", .n 0, .n 0]) := by
  decide

/-- C3 (amended): for every input triplet (h,r,t), in non-inverse mode
`h ∈ Index[("head", r, t)]` and `t ∈ Index[("tail", r, h)]`, and in inverse
mode `t ∈ Index[(r, h)]`; in the concrete scenario with the demo triplets
and inverse=False, the bucket of `("tail",0,0)` is the singleton 1 (not 1
and 2 as the spec scenario states), the bucket of `("head",0,1)` is 0, that
of `("head",0,2)` is 1, that of `("tail",1,0)` is 2, and that of
`("head",1,2)` is 0. -/
theorem build_index_membership (trips : List Triplet) (h r t : Nat)
    (hm : Triplet.mk h r t ∈ trips) :
    (h ∈ findBucket (build_index trips false) [.s "head", .n r, .n t] ∧
     t ∈ findBucket (build_index trips false) [.s "tail", .n r, .n h] ∧
     t ∈ findBucket (build_index trips true) [.n r, .n h]) ∧
    (findBucket (build_index demoTrips false) [.s "tail", .n 0, .n 0] = [1] ∧
     findBucket (build_index demoTrips false) [.s "head", .n 0, .n 1] = [0] ∧
     findBucket (build_index demoTrips false) [.s "head", .n 0, .n 2] = [1] ∧
     findBucket (build_index demoTrips false) [.s "tail", .n 1, .n 0] = [2] ∧
     findBucket (build_index demoTrips false) [.s "head", .n 1, .n 2] = [0]) := by
  have hne : PyVal.s "head" ≠ PyVal.s "tail" := by decide
  have hne2 : PyVal.s "tail" ≠ PyVal.s "head" := by decide
  constructor
  · refine ⟨?_, ?_, ?_⟩
    · exact (mem_findBucket_build_index trips false _ h).mpr
        ⟨⟨h, r, t⟩, hm, by simp [contrib_false, headKey, tailKey, hne, hne2]⟩
    · exact (mem_findBucket_build_index trips false _ t).mpr
        ⟨⟨h, r, t⟩, hm, by simp [contrib_false, headKey, tailKey, hne, hne2]⟩
    · exact (mem_findBucket_build_index trips true _ t).mpr
        ⟨⟨h, r, t⟩, hm, by simp [contrib_true, invKey]⟩
  · refine ⟨?_, ?_, ?_, ?_, ?_⟩ <;> decide

/-- Witness for C3 at the concrete input `(0,0,1) ∈ demoTrips`. -/
theorem build_index_membership_witness :
    ((0 : Nat) ∈ findBucket (build_index demoTrips false)
        [.s "head", .n 0, .n 1] ∧
     (1 : Nat) ∈ findBucket (build_index demoTrips false)
        [.s "tail", .n 0, .n 0] ∧
     (1 : Nat) ∈ findBucket (build_index demoTrips true) [.n 0, .n 0]) ∧
    (findBucket (build_index demoTrips false) [.s "tail", .n 0, .n 0] = [1] ∧
     findBucket (build_index demoTrips false) [.s "head", .n 0, .n 1] = [0] ∧
     findBucket (build_index demoTrips false) [.s "head", .n 0, .n 2] = [1] ∧
     findBucket (build_index demoTrips false) [.s "tail", .n 1, .n 0] = [2] ∧
     findBucket (build_index demoTrips false) [.s "head", .n 1, .n 2] = [0]) :=
  build_index_membership demoTrips 0 0 1 (by decide)

/-- C9: index construction is idempotent with respect to duplicate
triplets: building from a list containing the same triplet twice yields the
same index as building from the list with that triplet once — the same keys
are present and every key maps to the same set of entities. -/
theorem build_index_duplicate_idempotent (l1 l2 l3 : List Triplet)
    (t : Triplet) (inverse : Bool) (k : Key) :
    (k ∈ keyList (build_index (l1 ++ t :: l2 ++ t :: l3) inverse) ↔
      k ∈ keyList (build_index (l1 ++ t :: l2 ++ l3) inverse)) ∧
    ∀ e : Nat,
      (e ∈ findBucket (build_index (l1 ++ t :: l2 ++ t :: l3) inverse) k ↔
        e ∈ findBucket (build_index (l1 ++ t :: l2 ++ l3) inverse) k) := by
  have hmem : ∀ t1 : Triplet,
      t1 ∈ l1 ++ t :: l2 ++ t :: l3 ↔ t1 ∈ l1 ++ t :: l2 ++ l3 := by
    intro t1
    simp only [List.mem_append, List.mem_cons]
    tauto
  constructor
  · rw [keyList_build_index, keyList_build_index]
    constructor
    · rintro ⟨t1, ht1, hk⟩; exact ⟨t1, (hmem t1).mp ht1, hk⟩
    · rintro ⟨t1, ht1, hk⟩; exact ⟨t1, (hmem t1).mpr ht1, hk⟩
  · intro e
    rw [mem_findBucket_build_index, mem_findBucket_build_index]
    constructor
    · rintro ⟨t1, ht1, hk⟩; exact ⟨t1, (hmem t1).mp ht1, hk⟩
    · rintro ⟨t1, ht1, hk⟩; exact ⟨t1, (hmem t1).mpr ht1, hk⟩

/-- Embedding of `self.index[k]` on a `defaultdict(list)`: return the bucket
of `k` and the mapping afterwards; when `k` is absent a fresh empty bucket is
inserted at the end (Python defaultdict missing-key side effect). -/
def getDefault : Index → Key → List Nat × Index
  | [], k => ([], [(k, [])])
  | (k0, v) :: rest, k =>
    if k0 = k then (v, (k0, v) :: rest)
    else
      let p := getDefault rest k
      (p.1, (k0, v) :: p.2)

/-- One label row of `Sampler._get_labels`: a zero row of length `num_ents`
with entry 1 at every position listed in the bucket (`y[i, lbls] = 1`). -/
def labelRow (numEnts : Nat) (lbls : List Nat) : List Nat :=
  (List.range numEnts).map (fun e => if e ∈ lbls then 1 else 0)

/-- Embedding of `Sampler._get_labels`: one row per sample key, each looked
up with `self.index[tuple(x)]` on the defaultdict; returns the rows together
with the index as it stands after the lookups. -/
def get_labels (numEnts : Nat) (idx : Index) (samples : List Key) :
    List (List Nat) × Index :=
  match samples with
  | [] => ([], idx)
  | k :: ks =>
    let p := getDefault idx k
    let q := get_labels numEnts p.2 ks
    (labelRow numEnts p.1 :: q.1, q.2)

/-- Conversion of one tuple element by numpy string coercion. -/
def npStr : PyVal → PyVal
  | .s v => .s v
  | .n v => .s (toString v)

/-- Embedding of `np.array([list(x) for x in batch_samples])` at the level
of one key: a non-inverse key contains the string tag "head"/"tail", so
numpy coerces the whole row to its string dtype and every int becomes a
string; an inverse key is all ints and survives (np.int64 compares and
hashes equal to a Python int, so later dict lookups still hit). -/
def npConvert (inverse : Bool) (k : Key) : Key :=
  if inverse then k else k.map npStr

/-- Embedding of `One_to_N.__next__`: exhaustion test
`trip_iter >= len(keys) - 1` (Python int arithmetic, i.e.
`trip_iter + 1 >= len(keys)`), key slice `keys[trip_iter : min(trip_iter +
bs, len(keys))]`, numpy conversion of the batch, label construction, and
the advanced iterator. Returns `((converted batch, label rows), index after
the label lookups, new trip_iter)`, or `none` for StopIteration. -/
def One_to_N_next (numEnts : Nat) (inverse : Bool) (index : Index)
    (keys : List Key) (trip_iter bs : Nat) :
    Option ((List Key × List (List Nat)) × Index × Nat) :=
  if trip_iter + 1 ≥ keys.length then none
  else
    let batch := (keys.drop trip_iter).take bs
    let batchNp := batch.map (npConvert inverse)
    let p := get_labels numEnts index batchNp
    some ((batchNp, p.1), p.2, min (trip_iter + bs) keys.length)

/-- One-triplet dataset used as the failing input for C1 and C7. -/
def demo1 : List Triplet := [⟨0, 0, 1⟩]

/-- Index built at construction for `demo1` in non-inverse mode. -/
def demo1Index : Index := build_index demo1 false

/-- Key list captured at construction (`self.keys = list(self.index.keys())`). -/
def demo1Keys : List Key := keyList demo1Index

/-- C1: with triplets `[(0,0,1)]`, `num_ents = 2`, `batch_size = 2`,
`inverse = False`, the first `One_to_N` batch returns the all-zero label
matrix even though entity 0 is a member of `Index[keys[0]]`: the keys are
stringified by the numpy round-trip, every defaultdict lookup misses, and
`labels[i, e] == 1 iff e ∈ Index[keys[i]]` fails (contradicting the
`_get_labels` docstring "Entry = 1 when possible head/tail else 0"). -/
theorem One_to_N_label_matrix_zero :
    (One_to_N_next 2 false demo1Index demo1Keys 0 2).map
        (fun out => out.1.2) = some [[0, 0], [0, 0]] ∧
    (0 : Nat) ∈ findBucket demo1Index (demo1Keys.getD 0 []) := by
  decide

/-- C7: the same batch request mutates the index: the two stringified keys
miss the defaultdict and are inserted with empty buckets, so the
key-to-entities mapping after the call differs from the one built at
construction. -/
theorem One_to_N_index_mutated :
    (One_to_N_next 2 false demo1Index demo1Keys 0 2).map
        (fun out => out.2.1) =
      some (demo1Index ++
        [([.s "head", .s "0", .s "1"], []),
         ([.s "tail", .s "0", .s "0"], [])]) ∧
    demo1Index ++
        [([.s "head", .s "0", .s "1"], []),
         ([.s "tail", .s "0", .s "0"], [])] ≠ demo1Index := by
  decide

/-- Embedding of `One_to_K.__len__` and `One_to_N.__len__`: floor division
of the iterated sequence length by the batch size (for `One_to_N` the
divided quantity is `len(self.index)`, which equals `len(self.keys)`). -/
def sampler_len (n bs : Nat) : Nat := n / bs

/-- Trace of the slice bounds produced by repeatedly calling `__next__`
over a sequence of length `n` from position `it`: stop when
`trip_iter >= n - 1` (Python int arithmetic, i.e. `it + 1 >= n`), otherwise
yield `(it, min (it + bs) n)` and advance to `min (it + bs) n` — exactly the
slice and `_increment_iter` logic shared by `One_to_K` and `One_to_N`.
Structural fuel keeps the recursion executable; `fuel = n` is enough
whenever `bs > 0`. -/
def epochBatchesAux : Nat → Nat → Nat → Nat → List (Nat × Nat)
  | 0, _, _, _ => []
  | fuel + 1, n, bs, it =>
    if it + 1 ≥ n then []
    else (it, min (it + bs) n) :: epochBatchesAux fuel n bs (min (it + bs) n)

/-- The batch bounds of one full epoch from position 0. -/
def epochBatches (n bs : Nat) : List (Nat × Nat) := epochBatchesAux n n bs 0

lemma epochBatchesAux_exhausted (fuel n bs it : Nat) (h : n ≤ it + 1) :
    epochBatchesAux fuel n bs it = [] := by
  cases fuel with
  | zero => rfl
  | succ f => simp [epochBatchesAux, h]

lemma map_range_succ_shift {α : Type} (g : Nat → α) (q : Nat) :
    (List.range (q + 1)).map g
      = g 0 :: (List.range q).map (fun j => g (j + 1)) := by
  rw [List.range_succ_eq_map]
  simp [List.map_map, Function.comp]

lemma cons_map_append_shift (it bs q r : Nat) :
    (it, it + bs) ::
      ((List.range q).map (fun j => (it + bs + j * bs, it + bs + j * bs + bs))
        ++ [(it + bs + q * bs, it + bs + q * bs + r)])
    = (List.range (q + 1)).map (fun j => (it + j * bs, it + j * bs + bs))
      ++ [(it + (q + 1) * bs, it + (q + 1) * bs + r)] := by
  rw [List.range_succ_eq_map]
  simp only [List.map_cons, List.map_map, List.cons_append, Nat.zero_mul,
    Nat.add_zero]
  refine congrArg (fun l => ((it : Nat), it + bs) :: l) ?_
  refine congrArg₂ (· ++ ·) ?_ ?_
  · refine congrArg (fun f => List.map f (List.range q)) ?_
    funext j
    simp only [Function.comp_apply, Nat.succ_eq_add_one, Prod.mk.injEq]
    exact ⟨by ring, by ring⟩
  · simp only [List.cons.injEq, Prod.mk.injEq, and_true]
    exact ⟨by ring, by ring⟩

lemma cons_map_shift (it bs q : Nat) :
    (it, it + bs) ::
      (List.range q).map (fun j => (it + bs + j * bs, it + bs + j * bs + bs))
    = (List.range (q + 1)).map (fun j => (it + j * bs, it + j * bs + bs)) := by
  rw [List.range_succ_eq_map]
  simp only [List.map_cons, List.map_map, Nat.zero_mul, Nat.add_zero]
  refine congrArg (fun l => ((it : Nat), it + bs) :: l) ?_
  refine congrArg (fun f => List.map f (List.range q)) ?_
  funext j
  simp only [Function.comp_apply, Nat.succ_eq_add_one, Prod.mk.injEq]
  exact ⟨by ring, by ring⟩

lemma epochBatchesAux_shape (bs r : Nat) (h2 : 2 ≤ r) (hrb : r ≤ bs) :
    ∀ (q it fuel : Nat), q < fuel →
      epochBatchesAux fuel (it + q * bs + r) bs it
        = (List.range q).map (fun j => (it + j * bs, it + j * bs + bs))
          ++ [(it + q * bs, it + q * bs + r)] := by
  intro q
  induction q with
  | zero =>
    intro it fuel hf
    obtain ⟨f, rfl⟩ : ∃ f, fuel = f + 1 := ⟨fuel - 1, by omega⟩
    simp only [Nat.zero_mul, Nat.add_zero, epochBatchesAux]
    rw [if_neg (by omega)]
    have hmin : min (it + bs) (it + r) = it + r := by omega
    rw [hmin, epochBatchesAux_exhausted f (it + r) bs (it + r) (by omega)]
    simp
  | succ q ih =>
    intro it fuel hf
    obtain ⟨f, rfl⟩ : ∃ f, fuel = f + 1 := ⟨fuel - 1, by omega⟩
    have hmul : bs ≤ (q + 1) * bs := Nat.le_mul_of_pos_left bs (by omega)
    simp only [epochBatchesAux]
    rw [if_neg (by omega)]
    have hmin : min (it + bs) (it + (q + 1) * bs + r) = it + bs := by omega
    rw [hmin]
    have harg : it + (q + 1) * bs + r = it + bs + q * bs + r := by ring
    conv_lhs => rw [harg]
    rw [ih (it + bs) f (by omega)]
    exact cons_map_append_shift it bs q r

lemma epochBatchesAux_shape_r1 (bs : Nat) (hbs : 0 < bs) :
    ∀ (q it fuel : Nat), q ≤ fuel →
      epochBatchesAux fuel (it + q * bs + 1) bs it
        = (List.range q).map (fun j => (it + j * bs, it + j * bs + bs)) := by
  intro q
  induction q with
  | zero =>
    intro it fuel _
    rw [epochBatchesAux_exhausted fuel _ bs it (by omega)]
    simp
  | succ q ih =>
    intro it fuel hf
    obtain ⟨f, rfl⟩ : ∃ f, fuel = f + 1 := ⟨fuel - 1, by omega⟩
    have hmul : bs ≤ (q + 1) * bs := Nat.le_mul_of_pos_left bs (by omega)
    simp only [epochBatchesAux]
    rw [if_neg (by omega)]
    have hmin : min (it + bs) (it + (q + 1) * bs + 1) = it + bs := by omega
    rw [hmin]
    have harg : it + (q + 1) * bs + 1 = it + bs + q * bs + 1 := by ring
    conv_lhs => rw [harg]
    rw [ih (it + bs) f (by omega)]
    exact cons_map_shift it bs q

/-- C2 counterexample: with 5 triplets and batch_size 2 (length not a
multiple of the batch size) `len()` reports 2 and iteration yields exactly
those 2 full batches — positions 0..3 — and then stops: the final partial
batch (element 4) is never yielded, because of the exhaustion test
`trip_iter >= len - 1`. -/
theorem One_to_K_len_counterexample :
    5 % 2 ≠ 0 ∧ sampler_len 5 2 = 2 ∧
    epochBatches 5 2 = [(0, 2), (2, 4)] ∧
    (epochBatches 5 2).length ≠ sampler_len 5 2 + 1 := by
  decide

/-- C2 (amended): for a sequence length `n` that is not a multiple of
`batch_size`, `len()` reports `n / bs`; iteration yields the `n / bs` full
batches followed by one final partial batch only when `n % bs ≥ 2`; when
`n % bs = 1` the final partial batch is dropped by iteration as well (the
`trip_iter >= len - 1` exhaustion test skips a last batch of size one). -/
theorem One_to_K_len_vs_iteration (n bs : Nat) (hbs : 0 < bs)
    (hne : n % bs ≠ 0) :
    sampler_len n bs = n / bs ∧
    (2 ≤ n % bs →
      epochBatches n bs
        = (List.range (n / bs)).map (fun j => (j * bs, j * bs + bs))
          ++ [(n / bs * bs, n)]) ∧
    (n % bs = 1 →
      epochBatches n bs
        = (List.range (n / bs)).map (fun j => (j * bs, j * bs + bs))) := by
  have hmod : n % bs < bs := Nat.mod_lt _ hbs
  have hdm : n / bs * bs + n % bs = n := by
    rw [Nat.mul_comm]
    exact Nat.div_add_mod n bs
  have hq : n / bs ≤ n / bs * bs := Nat.le_mul_of_pos_right _ hbs
  refine ⟨rfl, ?_, ?_⟩
  · intro h2
    have hs := epochBatchesAux_shape bs (n % bs) h2 (by omega) (n / bs) 0 n
      (by omega)
    simp only [Nat.zero_add] at hs
    rw [hdm] at hs
    unfold epochBatches
    exact hs
  · intro h1
    have hs := epochBatchesAux_shape_r1 bs hbs (n / bs) 0 n (by omega)
    simp only [Nat.zero_add] at hs
    rw [h1] at hdm
    rw [hdm] at hs
    unfold epochBatches
    exact hs

/-- Witness for C2 at `n = 5`, `bs = 3` (remainder 2: the partial batch is
yielded) — the amended theorem applied at a concrete input. -/
theorem One_to_K_len_vs_iteration_witness :
    sampler_len 5 3 = 5 / 3 ∧
    (2 ≤ 5 % 3 →
      epochBatches 5 3
        = (List.range (5 / 3)).map (fun j => (j * 3, j * 3 + 3))
          ++ [(5 / 3 * 3, 5)]) ∧
    (5 % 3 = 1 →
      epochBatches 5 3
        = (List.range (5 / 3)).map (fun j => (j * 3, j * 3 + 3))) :=
  One_to_K_len_vs_iteration 5 3 (by decide) (by decide)

/-- Modelled from the spec: `kgpy.utils.randint_exclude` lives outside the
sampling module source; per the spec it draws a replacement uniformly from
`[lo, hi)` excluding `exclude` and must never return `exclude`. The
underlying random draw is the explicit parameter `rnd`, mapped
exclusion-aware onto the `hi - lo - 1` allowed values, skipping over
`exclude`. -/
def randint_exclude (lo hi exclude rnd : Nat) : Nat :=
  if exclude ≤ lo + rnd % (hi - lo - 1) then lo + rnd % (hi - lo - 1) + 1
  else lo + rnd % (hi - lo - 1)

lemma randint_exclude_spec (hi exclude rnd : Nat) (h2 : 2 ≤ hi) :
    randint_exclude 0 hi exclude rnd < hi ∧
    randint_exclude 0 hi exclude rnd ≠ exclude := by
  have h1 : 0 < hi - 0 - 1 := by omega
  have hm : rnd % (hi - 0 - 1) < hi - 0 - 1 := Nat.mod_lt _ h1
  unfold randint_exclude
  generalize rnd % (hi - 0 - 1) = v at hm
  split <;> omega

/-- Embedding of one corruption inside `One_to_K._sample_negative`:
`head_tail = random.choice([0, 2])` is the Bool `coin` (true corrupts
position 0, the head; false corrupts position 2, the tail); the new
triplet is a deep copy of `tp` with only the chosen position overwritten by
`utils.randint_exclude(0, num_ents, tp[head_tail])` drawn from `rv`. -/
def corrupt (numEnts : Nat) (coin : Bool) (rv : Nat) (tp : Triplet) : Triplet :=
  if coin then { tp with h := randint_exclude 0 numEnts tp.h rv }
  else { tp with t := randint_exclude 0 numEnts tp.t rv }

/-- Embedding of `One_to_K._sample_negative`: the outer loop runs
`num_negative` times, the inner loop walks the batch in order, so the
corruption of sample `i` in repetition `rep` sits at flat position
`rep * len(samples) + i`; that flat position also indexes the stream of
random draws `rnd`. -/
def sample_negative (numEnts numNeg : Nat) (samples : List Triplet)
    (rnd : Nat → Bool × Nat) : List Triplet :=
  (List.range numNeg).flatMap (fun rep =>
    (List.range samples.length).map (fun i =>
      corrupt numEnts (rnd (rep * samples.length + i)).1
        (rnd (rep * samples.length + i)).2 (samples.getD i default)))

lemma length_flatMap_const {α : Type} (f : Nat → List α) (b : Nat)
    (hf : ∀ r0, (f r0).length = b) :
    ∀ n, ((List.range n).flatMap f).length = n * b := by
  intro n
  induction n with
  | zero => simp
  | succ n ih =>
    rw [List.range_succ, List.flatMap_append]
    simp only [List.length_append, ih, List.flatMap_cons, List.flatMap_nil,
      List.append_nil, hf]
    ring

lemma getD_flatMap_const {α : Type} (d : α) (f : Nat → List α) (b : Nat)
    (hf : ∀ r0, (f r0).length = b) :
    ∀ n k i, k < n → i < b →
      ((List.range n).flatMap f).getD (k * b + i) d = (f k).getD i d := by
  intro n
  induction n with
  | zero =>
    intro k i hk _
    exact absurd hk (Nat.not_lt_zero k)
  | succ n ih =>
    intro k i hk hi
    rw [List.range_succ, List.flatMap_append]
    by_cases hkn : k < n
    · have hlen : k * b + i < ((List.range n).flatMap f).length := by
        rw [length_flatMap_const f b hf n]
        have ha : k * b + i < k * b + b := by omega
        have hb2 : k * b + b ≤ n * b := by
          rw [← Nat.succ_mul]
          exact Nat.mul_le_mul_right b hkn
        omega
      rw [List.getD_append _ _ d _ hlen]
      exact ih k i hkn hi
    · have hk0 : k = n := by omega
      subst hk0
      have hlen : ((List.range k).flatMap f).length = k * b :=
        length_flatMap_const f b hf k
      rw [List.getD_append_right _ _ d _ (by omega)]
      rw [hlen]
      have hidx : k * b + i - k * b = i := by omega
      rw [hidx]
      simp

/-- Length of the negative batch: `len(samples) * num_negative`. -/
lemma sample_negative_length (numEnts numNeg : Nat) (samples : List Triplet)
    (rnd : Nat → Bool × Nat) :
    (sample_negative numEnts numNeg samples rnd).length
      = samples.length * numNeg := by
  unfold sample_negative
  rw [length_flatMap_const _ samples.length (fun r0 => by simp) numNeg]
  ring

/-- Position `rep * len(samples) + i` of the negative batch holds the
corruption of sample `i` produced in repetition `rep`. -/
lemma sample_negative_getD (numEnts numNeg : Nat) (samples : List Triplet)
    (rnd : Nat → Bool × Nat) (rep i : Nat) (hr : rep < numNeg)
    (hi : i < samples.length) :
    (sample_negative numEnts numNeg samples rnd).getD
        (rep * samples.length + i) default
      = corrupt numEnts (rnd (rep * samples.length + i)).1
          (rnd (rep * samples.length + i)).2 (samples.getD i default) := by
  unfold sample_negative
  rw [getD_flatMap_const default _ samples.length (fun r0 => by simp)
    numNeg rep i hr hi]
  have hlen2 : i < ((List.range samples.length).map (fun i0 =>
      corrupt numEnts (rnd (rep * samples.length + i0)).1
        (rnd (rep * samples.length + i0)).2 (samples.getD i0 default))).length := by
    simp [hi]
  rw [List.getD_eq_getElem _ default hlen2, List.getElem_map,
    List.getElem_range]

/-- The relation between one positive and one of its generated negatives
asserted by the spec: the relation id is unchanged, exactly one of head or
tail differs, and the replacement at the corrupted position is a different
entity inside `[0, num_entities)`. -/
def corruptionOK (numEnts : Nat) (pos neg : Triplet) : Prop :=
  neg.r = pos.r ∧
    ((neg.h ≠ pos.h ∧ neg.h < numEnts ∧ neg.t = pos.t) ∨
     (neg.t ≠ pos.t ∧ neg.t < numEnts ∧ neg.h = pos.h))

instance (numEnts : Nat) (pos neg : Triplet) :
    Decidable (corruptionOK numEnts pos neg) := by
  unfold corruptionOK
  infer_instance

lemma corrupt_ok (numEnts : Nat) (hn : 2 ≤ numEnts) (coin : Bool) (rv : Nat)
    (tp : Triplet) : corruptionOK numEnts tp (corrupt numEnts coin rv tp) := by
  obtain ⟨hlt, hne⟩ := randint_exclude_spec numEnts tp.h rv hn
  obtain ⟨hlt2, hne2⟩ := randint_exclude_spec numEnts tp.t rv hn
  cases coin with
  | true =>
    have hc : corrupt numEnts true rv tp =
        { tp with h := randint_exclude 0 numEnts tp.h rv } := rfl
    rw [hc]
    exact ⟨rfl, Or.inl ⟨hne, hlt, rfl⟩⟩
  | false =>
    have hc : corrupt numEnts false rv tp =
        { tp with t := randint_exclude 0 numEnts tp.t rv } := rfl
    rw [hc]
    exact ⟨rfl, Or.inr ⟨hne2, hlt2, rfl⟩⟩

/-- C4: every negative triplet differs from its source positive in exactly
one of head (position 0) or tail (position 2), the replacement entity is
never the original value at the corrupted position, and the replacement
lies in `[0, num_entities)`; the source positive of the negative at flat
position `j` is sample `j % len(samples)`. -/
theorem One_to_K_negative_corruption (numEnts numNeg : Nat)
    (samples : List Triplet) (rnd : Nat → Bool × Nat) (hn : 2 ≤ numEnts)
    (j : Nat) (hj : j < (sample_negative numEnts numNeg samples rnd).length) :
    corruptionOK numEnts (samples.getD (j % samples.length) default)
      ((sample_negative numEnts numNeg samples rnd).getD j default) := by
  rw [sample_negative_length] at hj
  have hb : 0 < samples.length := by
    rcases Nat.eq_zero_or_pos samples.length with h0 | h0
    · rw [h0] at hj; simp at hj
    · exact h0
  have hdm : j / samples.length * samples.length + j % samples.length = j := by
    rw [Nat.mul_comm]
    exact Nat.div_add_mod j samples.length
  have hrep : j / samples.length < numNeg := by
    rw [Nat.div_lt_iff_lt_mul hb]
    rw [Nat.mul_comm] at hj
    exact hj
  have hmod : j % samples.length < samples.length := Nat.mod_lt _ hb
  have hget := sample_negative_getD numEnts numNeg samples rnd
    (j / samples.length) (j % samples.length) hrep hmod
  rw [hdm] at hget
  rw [hget]
  exact corrupt_ok numEnts hn (rnd j).1 (rnd j).2
    (samples.getD (j % samples.length) default)

/-- Deterministic random stream used by the concrete witnesses. -/
def rndW : Nat → Bool × Nat := fun _ => (true, 0)

/-- Witness for C4 at `num_ents = 3`, one negative per positive, batch
`[(0,0,1)]`, position 0. -/
theorem One_to_K_negative_corruption_witness :
    2 ≤ 3 ∧ 0 < (sample_negative 3 1 demo1 rndW).length ∧
    corruptionOK 3 (demo1.getD (0 % demo1.length) default)
      ((sample_negative 3 1 demo1 rndW).getD 0 default) :=
  ⟨by decide, by decide,
    One_to_K_negative_corruption 3 1 demo1 rndW (by decide) 0 (by decide)⟩

/-- C5: the negative batch has length exactly
`len(positives) * num_negative`, and it is ordered block-major by
repetition: the corruption of positive `i` in repetition `rep` sits at flat
position `rep * len(positives) + i`. -/
theorem One_to_K_negative_volume_order (numEnts numNeg : Nat)
    (samples : List Triplet) (rnd : Nat → Bool × Nat) :
    (sample_negative numEnts numNeg samples rnd).length
      = samples.length * numNeg ∧
    ∀ rep i, rep < numNeg → i < samples.length →
      (sample_negative numEnts numNeg samples rnd).getD
          (rep * samples.length + i) default
        = corrupt numEnts (rnd (rep * samples.length + i)).1
            (rnd (rep * samples.length + i)).2 (samples.getD i default) := by
  refine ⟨sample_negative_length numEnts numNeg samples rnd, ?_⟩
  intro rep i hr hi
  exact sample_negative_getD numEnts numNeg samples rnd rep i hr hi

/-- Witness for C5 at `num_ents = 3`, two negatives per positive, batch
`[(0,0,1)]`, repetition 1, sample 0. -/
theorem One_to_K_negative_volume_order_witness :
    (sample_negative 3 2 demo1 rndW).length = demo1.length * 2 ∧
    (sample_negative 3 2 demo1 rndW).getD (1 * demo1.length + 0) default
      = corrupt 3 (rndW (1 * demo1.length + 0)).1
          (rndW (1 * demo1.length + 0)).2 (demo1.getD 0 default) :=
  ⟨(One_to_K_negative_volume_order 3 2 demo1 rndW).1,
   (One_to_K_negative_volume_order 3 2 demo1 rndW).2 1 0 (by decide)
     (by decide)⟩

/-- Simultaneous swap `a[i], a[j] = a[j], a[i]` on a list. -/
def swapAt {α : Type} (l : List α) (i j : Nat) (d : α) : List α :=
  (l.set i (l.getD j d)).set j (l.getD i d)

lemma cons_set_perm {α : Type} :
    ∀ (xs : List α) (m : Nat) (x d : α), m < xs.length →
      (xs.getD m d :: xs.set m x).Perm (x :: xs) := by
  intro xs
  induction xs with
  | nil =>
    intro m x d hm
    simp at hm
  | cons y ys ih =>
    intro m x d hm
    cases m with
    | zero =>
      simp only [List.getD_cons_zero, List.set_cons_zero]
      exact List.Perm.swap x y ys
    | succ m =>
      simp only [List.getD_cons_succ, List.set_cons_succ]
      have h1 : (ys.getD m d :: y :: ys.set m x).Perm
          (y :: ys.getD m d :: ys.set m x) := List.Perm.swap _ _ _
      have h2 : (y :: ys.getD m d :: ys.set m x).Perm (y :: x :: ys) :=
        (ih m x d (by simpa using hm)).cons y
      have h3 : (y :: x :: ys).Perm (x :: y :: ys) := List.Perm.swap _ _ _
      exact h1.trans (h2.trans h3)

lemma swapAt_perm {α : Type} :
    ∀ (l : List α) (i j : Nat) (d : α), i < l.length → j < l.length →
      (swapAt l i j d).Perm l := by
  intro l
  induction l with
  | nil =>
    intro i j d hi _
    simp at hi
  | cons x xs ih =>
    intro i j d hi hj
    cases i with
    | zero =>
      cases j with
      | zero =>
        simp [swapAt]
      | succ m =>
        simp only [swapAt, List.getD_cons_zero, List.getD_cons_succ,
          List.set_cons_zero, List.set_cons_succ]
        exact cons_set_perm xs m x d (by simpa using hj)
    | succ m =>
      cases j with
      | zero =>
        simp only [swapAt, List.getD_cons_zero, List.getD_cons_succ,
          List.set_cons_zero, List.set_cons_succ]
        exact cons_set_perm xs m x d (by simpa using hi)
      | succ k =>
        simp only [swapAt, List.getD_cons_succ, List.set_cons_succ]
        exact (ih m k d (by simpa using hi) (by simpa using hj)).cons x

/-- Embedding of `np.random.shuffle` (Fisher–Yates): for
`i = n-1, ..., 1` swap position `i` with a drawn position
`rnd i % (i + 1)` in `[0, i]`; the final `i = 0` step here is a self-swap,
hence a no-op, matching numpy stopping at `i = 1`. -/
def fisherYates {α : Type} (rnd : Nat → Nat) (d : α) : Nat → List α → List α
  | 0, l => l
  | i + 1, l => fisherYates rnd d i (swapAt l i (rnd i % (i + 1)) d)

lemma fisherYates_perm {α : Type} (rnd : Nat → Nat) (d : α) :
    ∀ (k : Nat) (l : List α), k ≤ l.length → (fisherYates rnd d k l).Perm l := by
  intro k
  induction k with
  | zero =>
    intro l _
    exact List.Perm.refl l
  | succ i ih =>
    intro l hk
    have hi : i < l.length := by omega
    have hj : rnd i % (i + 1) < l.length := by
      have := Nat.mod_lt (rnd i) (show 0 < i + 1 by omega)
      omega
    have hswap := swapAt_perm l i (rnd i % (i + 1)) d hi hj
    have hlen : (swapAt l i (rnd i % (i + 1)) d).length = l.length := by
      simp [swapAt]
    have hrec := ih (swapAt l i (rnd i % (i + 1)) d) (by omega)
    exact hrec.trans hswap

/-- Embedding of `Sampler.reset`: set `trip_iter` to 0 and shuffle the
underlying sequence in place with `np.random.shuffle` (the triplet list for
`One_to_K`, the key list for `One_to_N`). -/
def reset {α : Type} (rnd : Nat → Nat) (d : α) (seq : List α) :
    Nat × List α :=
  (0, fisherYates rnd d seq.length seq)

/-- C8: every `reset()` sets the iteration position to 0 and shuffles the
underlying sequence in place preserving its multiset of items: the shuffled
sequence is a permutation of the original (no item added, lost or
duplicated) and the length never changes. -/
theorem reset_position_and_shuffle {α : Type} (rnd : Nat → Nat) (d : α)
    (seq : List α) :
    (reset rnd d seq).1 = 0 ∧ (reset rnd d seq).2.Perm seq ∧
    (reset rnd d seq).2.length = seq.length := by
  refine ⟨rfl, ?_, ?_⟩
  · exact fisherYates_perm rnd d seq.length seq (le_refl _)
  · exact (fisherYates_perm rnd d seq.length seq (le_refl _)).length_eq

/-- Iteration state of `One_to_K`: the (shuffled) triplet list and the
cursor `trip_iter`. -/
structure KState where
  triplets : List Triplet
  trip_iter : Nat
deriving DecidableEq

/-- Embedding of `One_to_K.__next__`: exhaustion test
`trip_iter >= len(triplets) - 1` (Python int arithmetic, i.e.
`trip_iter + 1 >= len`), batch slice
`triplets[trip_iter : min(trip_iter + bs, len)]`, negative sampling on the
batch, advanced cursor. Returns `((positives, negatives), new state)`, or
`none` for StopIteration. -/
def One_to_K_next (numEnts bs numNeg : Nat) (rnd : Nat → Bool × Nat)
    (s : KState) : Option ((List Triplet × List Triplet) × KState) :=
  if s.trip_iter + 1 ≥ s.triplets.length then none
  else
    let batch := (s.triplets.drop s.trip_iter).take bs
    some ((batch, sample_negative numEnts numNeg batch rnd),
      ⟨s.triplets, min (s.trip_iter + bs) s.triplets.length⟩)

/-- C10: generating negatives never mutates the positives: whenever
`__next__` returns, the positive batch it returns is exactly the
corresponding slice of the stored triplet sequence, the stored sequence
itself is unchanged in the new state, and the negatives are a pure function
of that untouched batch (each corruption works on a deep copy). -/
theorem One_to_K_next_frame (numEnts bs numNeg : Nat)
    (rnd : Nat → Bool × Nat) (s : KState) (pos negs : List Triplet)
    (s1 : KState)
    (h : One_to_K_next numEnts bs numNeg rnd s = some ((pos, negs), s1)) :
    pos = (s.triplets.drop s.trip_iter).take bs ∧
    s1.triplets = s.triplets ∧
    negs = sample_negative numEnts numNeg pos rnd := by
  unfold One_to_K_next at h
  split at h
  · exact Option.noConfusion h
  · simp only [Option.some.injEq, Prod.mk.injEq] at h
    obtain ⟨⟨hp, hn⟩, hs⟩ := h
    subst hp
    subst hn
    subst hs
    exact ⟨rfl, rfl, rfl⟩

/-- Witness for C10: the first batch of the demo triplets with
`num_ents = 3`, `batch_size = 2`, one negative per positive. -/
theorem One_to_K_next_frame_witness :
    [Triplet.mk 0 0 1, Triplet.mk 1 0 2]
        = ((KState.mk demoTrips 0).triplets.drop
            (KState.mk demoTrips 0).trip_iter).take 2 ∧
    (KState.mk demoTrips 2).triplets = (KState.mk demoTrips 0).triplets ∧
    [Triplet.mk 1 0 1, Triplet.mk 0 0 2]
        = sample_negative 3 1 [Triplet.mk 0 0 1, Triplet.mk 1 0 2] rndW :=
  One_to_K_next_frame 3 2 1 rndW (KState.mk demoTrips 0) _ _ _ (by decide)

/-- The failure modes the spec assigns to sampler construction. -/
inductive SamplerError where
  | invalidConfiguration
  | emptyDataset
deriving DecidableEq

/-- The state a sampler holds after `Sampler.__init__`. -/
structure SamplerState where
  bs : Nat
  num_ents : Nat
  inverse : Bool
  index : Index
  keys : List Key
  triplets : List Triplet
deriving DecidableEq

/-- Embedding of `Sampler.__init__` (run unchanged by both
`One_to_K.__init__` and `One_to_N.__init__`): store the arguments, build
the index, capture the key list. The Python constructor performs no
validation and never raises; the `Except` result type only makes room to
express the failure modes the spec claims. -/
def sampler_init (triplets : List Triplet) (bs num_ents : Nat)
    (inverse : Bool) : Except SamplerError SamplerState :=
  .ok { bs := bs, num_ents := num_ents, inverse := inverse,
        index := build_index triplets inverse,
        keys := keyList (build_index triplets inverse),
        triplets := triplets }

/-- C6 counterexample: constructing with zero triplets, `batch_size = 0`
and `num_entities = 0` — inputs the claim says must fail at construction
with EmptyDataset respectively InvalidConfiguration — succeeds and returns
a fully built (empty) sampler state. -/
theorem sampler_init_empty_ok :
    sampler_init [] 0 0 false =
      Except.ok { bs := 0, num_ents := 0, inverse := false, index := [],
                  keys := [], triplets := [] } := rfl

/-- C6 (amended): construction never raises — neither batch_size nor
num_entities nor dataset emptiness is validated; every call returns a
normally constructed state whose index is built from the given triplets. -/
theorem sampler_init_never_fails (triplets : List Triplet)
    (bs num_ents : Nat) (inverse : Bool) (e : SamplerError) :
    sampler_init triplets bs num_ents inverse ≠ Except.error e ∧
    ∃ st : SamplerState,
      sampler_init triplets bs num_ents inverse = Except.ok st ∧
      st.index = build_index triplets inverse := by
  refine ⟨?_, ⟨_, rfl, rfl⟩⟩
  intro hc
  simp [sampler_init] at hc

end Kgpy
